import Mathlib

/-!
# Verification of the leptos_ws signal-synchronization core

This file gives a shallow embedding of the signal registry and
synchronization engine of the `leptos_ws` crate and proves (or refutes)
the frozen specification claims against it.

The embedding follows the Rust sources:
* `src/ws_signals.rs` — the `WsSignals` registry (a concurrent map modelled
  as an association list with replace-on-insert semantics).
* `src/bidirectional/server.rs`, `src/bidirectional/client.rs`,
  `src/read_only/server.rs` — the stateful signal entries, each carrying a
  typed reactive cell, a JSON shadow and a broadcast endpoint (modelled as
  a log of emitted `(origin, message)` pairs).
* `src/lib.rs` — the per-connection protocol driver (`handle_broadcasts`,
  the `Establish` frame handlers, and the client websocket `send`).
* the JSON patch codec used through the `json_patch` crate; the crate is an
  external collaborator of the repository, so `diff` / patch application are
  modelled from the spec's contract (§4.1: deterministic RFC-6902 minimal
  diff; atomic application that leaves the value unchanged on error).

Rust machine-level details abstracted by the embedding: lock poisoning
never happens, JSON numbers are integers (their arithmetic is irrelevant to
every claim), JSON-pointer tokens are kept structured (`key`/`index`)
rather than escape-encoded strings, serde_json objects are the crate's
default `BTreeMap`, i.e. association lists strictly sorted by key, and a
Rust `panic!`/`unwrap` failure is modelled by `Option.none`.
-/

/-! ## JSON values (model of `serde_json::Value`) -/

/-- A JSON value.  Objects are association lists; the well-formedness
predicate `JVal.wf` below captures serde_json's `BTreeMap` representation
(keys strictly sorted, hence duplicate-free). -/
inductive JVal : Type where
  | null : JVal
  | bool : Bool → JVal
  | num : Int → JVal
  | str : String → JVal
  | arr : List JVal → JVal
  | obj : List (String × JVal) → JVal

mutual

/-- Structural equality test on JSON values (model of `PartialEq` on
`serde_json::Value`, restricted to sorted-object representatives). -/
def beqJ : JVal → JVal → Bool
  | .null, .null => true
  | .bool a, .bool b => a == b
  | .num a, .num b => a == b
  | .str a, .str b => a == b
  | .arr xs, .arr ys => beqArr xs ys
  | .obj fs, .obj gs => beqObj fs gs
  | _, _ => false

/-- Elementwise equality test on JSON arrays. -/
def beqArr : List JVal → List JVal → Bool
  | [], [] => true
  | x :: xs, y :: ys => beqJ x y && beqArr xs ys
  | _, _ => false

/-- Fieldwise equality test on JSON object field lists. -/
def beqObj : List (String × JVal) → List (String × JVal) → Bool
  | [], [] => true
  | (k, v) :: fs, (k', v') :: gs => k == k' && beqJ v v' && beqObj fs gs
  | _, _ => false

end

theorem beqJ_iff_eq : ∀ (a b : JVal), beqJ a b = true ↔ a = b := by
  have main : ∀ (n : Nat) (a b : JVal), sizeOf a ≤ n → (beqJ a b = true ↔ a = b) := by
    intro n
    induction n with
    | zero =>
      intro a b h
      exfalso
      cases a <;> simp_all
    | succ n ih =>
      have harr : ∀ (xs ys : List JVal), sizeOf xs ≤ n + 1 →
          (beqArr xs ys = true ↔ xs = ys) := by
        intro xs
        induction xs with
        | nil => intro ys _; cases ys <;> simp [beqArr]
        | cons x xs ihxs =>
          intro ys hsz
          cases ys with
          | nil => simp [beqArr]
          | cons y ys =>
            have hc : sizeOf (x :: xs) = 1 + sizeOf x + sizeOf xs :=
              List.cons.sizeOf_spec x xs
            have h1 : sizeOf x ≤ n := by omega
            have h2 : sizeOf xs ≤ n + 1 := by omega
            simp [beqArr, ih x y h1, ihxs ys h2]
      have hobj : ∀ (fs gs : List (String × JVal)), sizeOf fs ≤ n + 1 →
          (beqObj fs gs = true ↔ fs = gs) := by
        intro fs
        induction fs with
        | nil => intro gs _; cases gs <;> simp [beqObj]
        | cons p fs ihfs =>
          intro gs hsz
          obtain ⟨k, v⟩ := p
          cases gs with
          | nil => simp [beqObj]
          | cons q gs =>
            obtain ⟨k', v'⟩ := q
            have hc : sizeOf ((k, v) :: fs) = 1 + sizeOf (k, v) + sizeOf fs :=
              List.cons.sizeOf_spec (k, v) fs
            have hp : sizeOf (k, v) = 1 + sizeOf k + sizeOf v := rfl
            have h1 : sizeOf v ≤ n := by omega
            have h2 : sizeOf fs ≤ n + 1 := by omega
            simp [beqObj, ih v v' h1, ihfs gs h2]
      intro a b h
      cases a <;> cases b <;> simp_all [beqJ]
      · exact harr _ _ (by omega)
      · exact hobj _ _ (by omega)
  intro a b
  exact main (sizeOf a) a b le_rfl

instance : DecidableEq JVal := fun a b => decidable_of_iff _ (beqJ_iff_eq a b)

/-- One token of an RFC-6901 JSON pointer, kept structured: an object key
or an array index. -/
inductive PTok : Type where
  | key : String → PTok
  | idx : Nat → PTok
deriving DecidableEq

/-- One RFC-6902 patch operation (the three kinds the engine's diff
produces). -/
inductive Op : Type where
  | add : List PTok → JVal → Op
  | remove : List PTok → Op
  | replace : List PTok → JVal → Op
deriving DecidableEq

/-! ### Object-member operations (model of `BTreeMap` access) -/

/-- Look up a key in an object's field list (first match). -/
def objGet (k : String) : List (String × JVal) → Option JVal
  | [] => none
  | (k', v) :: rest => if k = k' then some v else objGet k rest

/-- Sorted insert-or-replace of a binding, the `BTreeMap` insertion used by
a JSON-patch `add`/`replace` on an object member. -/
def objInsert (k : String) (v : JVal) : List (String × JVal) → List (String × JVal)
  | [] => [(k, v)]
  | (k', v') :: rest =>
    if k < k' then (k, v) :: (k', v') :: rest
    else if k = k' then (k, v) :: rest
    else (k', v') :: objInsert k v rest

/-- Remove the binding of a key (first match). -/
def objRemove (k : String) : List (String × JVal) → List (String × JVal)
  | [] => []
  | (k', v') :: rest => if k = k' then rest else (k', v') :: objRemove k rest

/-! ### Array-element operations -/

/-- Insert an element before position `i` (fails when `i` exceeds the
length); an RFC-6902 `add` on an array index. -/
def listInsertAt : Nat → JVal → List JVal → Option (List JVal)
  | 0, v, xs => some (v :: xs)
  | i + 1, v, x :: xs => (listInsertAt i v xs).map (x :: ·)
  | _ + 1, _, [] => none

/-- Remove the element at position `i` (fails out of range). -/
def listRemoveAt : Nat → List JVal → Option (List JVal)
  | 0, _ :: xs => some xs
  | i + 1, x :: xs => (listRemoveAt i xs).map (x :: ·)
  | _, [] => none

/-- Replace the element at position `i` (fails out of range). -/
def listSetAt : Nat → JVal → List JVal → Option (List JVal)
  | 0, v, _ :: xs => some (v :: xs)
  | i + 1, v, x :: xs => (listSetAt i v xs).map (x :: ·)
  | _, _, [] => none

/-! ### Patch application

Model of the patch codec's `apply` (spec §4.1; realized by the external
`json_patch` crate).  Each operation resolves its pointer and fails when a
referenced location does not exist; `applyPatch` applies the operations in
sequence and is atomic by construction (the input value is returned
unchanged to the caller on failure, matching the crate's documented
behavior). -/

/-- Apply an RFC-6902 `add`: at the root it replaces the whole document, on
an object member it inserts or replaces, on an array index it inserts. -/
def opAdd : List PTok → JVal → JVal → Option JVal
  | [], w, _ => some w
  | [.key k], w, .obj fs => some (.obj (objInsert k w fs))
  | [.idx i], w, .arr xs => (listInsertAt i w xs).map JVal.arr
  | .key k :: t :: rest, w, .obj fs => do
    let c ← objGet k fs
    let c' ← opAdd (t :: rest) w c
    some (.obj (objInsert k c' fs))
  | .idx i :: t :: rest, w, .arr xs => do
    let c ← xs[i]?
    let c' ← opAdd (t :: rest) w c
    (listSetAt i c' xs).map JVal.arr
  | _, _, _ => none

/-- Apply an RFC-6902 `remove`: the target location must exist; the root
cannot be removed. -/
def opRemove : List PTok → JVal → Option JVal
  | [], _ => none
  | [.key k], .obj fs =>
    if (objGet k fs).isSome then some (.obj (objRemove k fs)) else none
  | [.idx i], .arr xs => (listRemoveAt i xs).map JVal.arr
  | .key k :: t :: rest, .obj fs => do
    let c ← objGet k fs
    let c' ← opRemove (t :: rest) c
    some (.obj (objInsert k c' fs))
  | .idx i :: t :: rest, .arr xs => do
    let c ← xs[i]?
    let c' ← opRemove (t :: rest) c
    (listSetAt i c' xs).map JVal.arr
  | _, _ => none

/-- Apply an RFC-6902 `replace`: the target location must exist. -/
def opReplace : List PTok → JVal → JVal → Option JVal
  | [], w, _ => some w
  | [.key k], w, .obj fs =>
    if (objGet k fs).isSome then some (.obj (objInsert k w fs)) else none
  | [.idx i], w, .arr xs => (listSetAt i w xs).map JVal.arr
  | .key k :: t :: rest, w, .obj fs => do
    let c ← objGet k fs
    let c' ← opReplace (t :: rest) w c
    some (.obj (objInsert k c' fs))
  | .idx i :: t :: rest, w, .arr xs => do
    let c ← xs[i]?
    let c' ← opReplace (t :: rest) w c
    (listSetAt i c' xs).map JVal.arr
  | _, _, _ => none

/-- Apply one patch operation. -/
def applyOp (v : JVal) : Op → Option JVal
  | .add p w => opAdd p w v
  | .remove p => opRemove p v
  | .replace p w => opReplace p w v

/-- Apply a whole patch, operation by operation; `none` models the
`UpdateFailed` outcome, in which case the caller keeps its old value. -/
def applyPatch : JVal → List Op → Option JVal
  | v, [] => some v
  | v, op :: rest =>
    match applyOp v op with
    | some v' => applyPatch v' rest
    | none => none

/-! ### Diff

Model of the patch codec's `diff` (spec §4.1): a deterministic minimal
RFC-6902 patch.  Objects are compared member-wise (removals for members
only on the left, recursive diffs for shared members, additions for members
only on the right), arrays are compared index-wise with trailing removals
or additions, and any other disagreement becomes a whole-value `replace`. -/

/-- Prefix a patch operation's pointer with one more leading token. -/
def nestOp (t : PTok) : Op → Op
  | .add p v => .add (t :: p) v
  | .remove p => .remove (t :: p)
  | .replace p v => .replace (t :: p) v

/-- `add` operations appending the extra right-hand tail elements of an
array, starting at index `i`. -/
def addsArr (i : Nat) : List JVal → List Op
  | [] => []
  | y :: ys => .add [.idx i] y :: addsArr (i + 1) ys

theorem objGet_sizeOf {k : String} :
    ∀ {fs : List (String × JVal)} {v : JVal},
      objGet k fs = some v → sizeOf v < sizeOf fs := by
  intro fs
  induction fs with
  | nil => intro v h; simp [objGet] at h
  | cons p rest ih =>
    intro v h
    obtain ⟨k', v'⟩ := p
    simp only [objGet] at h
    by_cases hk : k = k'
    · simp [hk] at h
      have hc : sizeOf ((k', v') :: rest) = 1 + sizeOf (k', v') + sizeOf rest :=
        List.cons.sizeOf_spec (k', v') rest
      have hp : sizeOf (k', v') = 1 + sizeOf k' + sizeOf v' := rfl
      rw [← h]
      omega
    · simp [hk] at h
      have := ih h
      have hc : sizeOf ((k', v') :: rest) = 1 + sizeOf (k', v') + sizeOf rest :=
        List.cons.sizeOf_spec (k', v') rest
      omega

mutual

/-- Minimal RFC-6902 diff of two JSON values. -/
def diff (l r : JVal) : List Op :=
  match l, r with
  | .obj lf, .obj rf =>
    diffObj rf lf
      ++ (rf.filter (fun p => (objGet p.1 lf).isNone)).map
           (fun p => .add [.key p.1] p.2)
  | .arr lx, .arr rx =>
    diffArr 0 lx rx
      ++ List.replicate (lx.length - rx.length) (.remove [.idx rx.length])
      ++ addsArr lx.length (rx.drop lx.length)
  | l, r => if l = r then [] else [.replace [] r]
termination_by sizeOf l + sizeOf r
decreasing_by
  all_goals simp_wf
  all_goals omega

/-- Member-wise part of an object diff: walk the left-hand fields, emitting
a recursive diff for members also present on the right and a removal for
members absent there. -/
def diffObj (rf : List (String × JVal)) : List (String × JVal) → List Op
  | [] => []
  | (k, lv) :: rest =>
    (match h : objGet k rf with
     | some rv => (diff lv rv).map (nestOp (.key k))
     | none => [.remove [.key k]])
      ++ diffObj rf rest
termination_by lf => sizeOf rf + sizeOf lf
decreasing_by
  all_goals first
    | (simp only [List.cons.sizeOf_spec, Prod.mk.sizeOf_spec]; omega)
    | (have hs := objGet_sizeOf h
       simp only [List.cons.sizeOf_spec, Prod.mk.sizeOf_spec]
       omega)

/-- Index-wise part of an array diff over the common prefix. -/
def diffArr (i : Nat) : List JVal → List JVal → List Op
  | [], _ => []
  | _ :: _, [] => []
  | x :: xs, y :: ys => (diff x y).map (nestOp (.idx i)) ++ diffArr (i + 1) xs ys
termination_by lx rx => sizeOf lx + sizeOf rx
decreasing_by
  all_goals simp_wf
  all_goals omega

end

/-! ### Well-formed values

serde_json's default object representation is a `BTreeMap`, so an in-memory
object's field list is strictly sorted by key (hence duplicate-free).
`wfJ` states that invariant recursively. -/

/-- Strictly sorted keys, the `BTreeMap` representation invariant. -/
def KSorted (fs : List (String × JVal)) : Prop :=
  List.Pairwise (· < ·) (fs.map Prod.fst)

instance : DecidablePred KSorted := fun fs =>
  inferInstanceAs (Decidable (List.Pairwise _ _))

mutual

/-- A JSON value all of whose objects are sorted-key maps. -/
def wfJ : JVal → Bool
  | .obj fs => decide (KSorted fs) && wfFields fs
  | .arr xs => wfElems xs
  | _ => true

/-- All field values of an object are well-formed. -/
def wfFields : List (String × JVal) → Bool
  | [] => true
  | p :: rest => wfJ p.2 && wfFields rest

/-- All elements of an array are well-formed. -/
def wfElems : List JVal → Bool
  | [] => true
  | x :: xs => wfJ x && wfElems xs

end

theorem wfFields_iff {fs : List (String × JVal)} :
    wfFields fs = true ↔ ∀ p ∈ fs, wfJ p.2 = true := by
  induction fs with
  | nil => simp [wfFields]
  | cons p rest ih => simp [wfFields, ih]

theorem wfElems_iff {xs : List JVal} :
    wfElems xs = true ↔ ∀ x ∈ xs, wfJ x = true := by
  induction xs with
  | nil => simp [wfElems]
  | cons x xs ih => simp [wfElems, ih]

theorem wfJ_obj {fs : List (String × JVal)} :
    wfJ (.obj fs) = true ↔ KSorted fs ∧ ∀ p ∈ fs, wfJ p.2 = true := by
  simp [wfJ, wfFields_iff]

theorem wfJ_arr {xs : List JVal} :
    wfJ (.arr xs) = true ↔ ∀ x ∈ xs, wfJ x = true := by
  simp [wfJ, wfElems_iff]
/-! ### Lemmas about object-member operations -/

theorem objGet_objInsert (k k' : String) (v : JVal) (fs : List (String × JVal)) :
    objGet k (objInsert k' v fs) = if k = k' then some v else objGet k fs := by
  induction fs with
  | nil =>
    by_cases h : k = k' <;> simp [objInsert, objGet, h]
  | cons p rest ih =>
    obtain ⟨k'', v''⟩ := p
    simp only [objInsert]
    rcases lt_trichotomy k' k'' with hlt | heq | hgt
    · rw [if_pos hlt]
      by_cases h : k = k' <;> simp [objGet, h]
    · subst heq
      rw [if_neg (lt_irrefl _), if_pos rfl]
      by_cases h : k = k' <;> simp [objGet, h]
    · rw [if_neg (not_lt_of_gt hgt), if_neg (ne_of_gt hgt)]
      by_cases h : k = k''
      · subst h
        have hne : k ≠ k' := ne_of_lt hgt
        simp [objGet, hne]
      · simp [objGet, h, ih]

theorem objInsert_objInsert (k : String) (a b : JVal) (fs : List (String × JVal)) :
    objInsert k b (objInsert k a fs) = objInsert k b fs := by
  induction fs with
  | nil => simp [objInsert, lt_irrefl]
  | cons p rest ih =>
    obtain ⟨k', v'⟩ := p
    simp only [objInsert]
    rcases lt_trichotomy k k' with hlt | heq | hgt
    · simp [objInsert, hlt, lt_irrefl]
    · subst heq
      simp [objInsert, lt_irrefl]
    · rw [if_neg (not_lt_of_gt hgt), if_neg (ne_of_gt hgt)]
      simp only [objInsert, if_neg (not_lt_of_gt hgt), if_neg (ne_of_gt hgt)]
      rw [ih]

theorem mem_objInsert {q : String × JVal} {k : String} {v : JVal} :
    ∀ {fs : List (String × JVal)}, q ∈ objInsert k v fs → q = (k, v) ∨ q ∈ fs := by
  intro fs
  induction fs with
  | nil => intro h; simpa [objInsert] using h
  | cons p rest ih =>
    obtain ⟨k', v'⟩ := p
    intro h
    simp only [objInsert] at h
    split_ifs at h with h1 h2
    · rcases List.mem_cons.mp h with h | h
      · exact Or.inl h
      · exact Or.inr h
    · rcases List.mem_cons.mp h with h | h
      · exact Or.inl h
      · exact Or.inr (List.mem_cons_of_mem _ h)
    · rcases List.mem_cons.mp h with h | h
      · exact Or.inr (h ▸ List.mem_cons_self _ _)
      · rcases ih h with h | h
        · exact Or.inl h
        · exact Or.inr (List.mem_cons_of_mem _ h)

theorem KSorted.tail' {p : String × JVal} {rest : List (String × JVal)}
    (h : KSorted (p :: rest)) : KSorted rest := by
  simp only [KSorted, List.map_cons, List.pairwise_cons] at h
  exact h.2

theorem KSorted.head_lt {p : String × JVal} {rest : List (String × JVal)}
    (h : KSorted (p :: rest)) : ∀ q ∈ rest, p.1 < q.1 := by
  simp only [KSorted, List.map_cons, List.pairwise_cons] at h
  intro q hq
  exact h.1 q.1 (List.mem_map_of_mem Prod.fst hq)

theorem KSorted.cons {p : String × JVal} {rest : List (String × JVal)}
    (h1 : ∀ q ∈ rest, p.1 < q.1) (h2 : KSorted rest) : KSorted (p :: rest) := by
  simp only [KSorted, List.map_cons, List.pairwise_cons]
  refine ⟨?_, h2⟩
  intro b hb
  simp only [List.mem_map] at hb
  obtain ⟨q, hq, rfl⟩ := hb
  exact h1 q hq

theorem KSorted_objInsert (k : String) (v : JVal) :
    ∀ {fs : List (String × JVal)}, KSorted fs → KSorted (objInsert k v fs) := by
  intro fs
  induction fs with
  | nil =>
    intro _
    simp [objInsert, KSorted]
  | cons p rest ih =>
    obtain ⟨k', v'⟩ := p
    intro h
    simp only [objInsert]
    rcases lt_trichotomy k k' with hlt | heq | hgt
    · rw [if_pos hlt]
      refine KSorted.cons ?_ h
      intro q hq
      rcases List.mem_cons.mp hq with hq | hq
      · exact hq ▸ hlt
      · exact lt_trans hlt (KSorted.head_lt h q hq)
    · subst heq
      rw [if_neg (lt_irrefl _), if_pos rfl]
      exact KSorted.cons (KSorted.head_lt h) (KSorted.tail' h)
    · rw [if_neg (not_lt_of_gt hgt), if_neg (ne_of_gt hgt)]
      refine KSorted.cons ?_ (ih (KSorted.tail' h))
      intro q hq
      rcases mem_objInsert hq with hq | hq
      · exact hq ▸ hgt
      · exact KSorted.head_lt h q hq

theorem objGet_eq_none_iff {k : String} :
    ∀ {fs : List (String × JVal)}, objGet k fs = none ↔ k ∉ fs.map Prod.fst := by
  intro fs
  induction fs with
  | nil => simp [objGet]
  | cons p rest ih =>
    obtain ⟨k', v'⟩ := p
    by_cases h : k = k' <;> simp [objGet, h, ih]

theorem objGet_mem {k : String} {v : JVal} :
    ∀ {fs : List (String × JVal)}, objGet k fs = some v → (k, v) ∈ fs := by
  intro fs
  induction fs with
  | nil => intro h; simp [objGet] at h
  | cons p rest ih =>
    obtain ⟨k', v'⟩ := p
    intro h
    by_cases hk : k = k'
    · simp [objGet, hk] at h
      simp [hk, h]
    · simp [objGet, hk] at h
      exact List.mem_cons_of_mem _ (ih h)

theorem objInsert_self {k : String} {c : JVal} :
    ∀ {fs : List (String × JVal)}, KSorted fs → objGet k fs = some c →
      objInsert k c fs = fs := by
  intro fs
  induction fs with
  | nil => intro _ h; simp [objGet] at h
  | cons p rest ih =>
    obtain ⟨k', v'⟩ := p
    intro hs h
    by_cases hk : k = k'
    · simp only [objGet, if_pos hk] at h
      subst hk
      injection h with h
      simp [objInsert, lt_irrefl, h]
    · simp only [objGet, if_neg hk] at h
      have hmem := objGet_mem h
      have hlt : k' < k := KSorted.head_lt hs (k, c) hmem
      simp only [objInsert, if_neg (not_lt_of_gt hlt), if_neg (ne_of_gt hlt)]
      rw [ih (KSorted.tail' hs) h]

theorem objGet_append_at {k : String} {w : JVal}
    {acc rest : List (String × JVal)} (hacc : ∀ a ∈ acc, a.1 ≠ k) :
    objGet k (acc ++ (k, w) :: rest) = some w := by
  induction acc with
  | nil => simp [objGet]
  | cons a as ih =>
    obtain ⟨ka, va⟩ := a
    have hne : k ≠ ka := fun h => hacc (ka, va) (List.mem_cons_self _ _) (by simp [h])
    simp only [List.cons_append, objGet, if_neg hne]
    exact ih (fun a ha => hacc a (List.mem_cons_of_mem _ ha))

theorem objInsert_append_at {k : String} {v w : JVal}
    {acc rest : List (String × JVal)} (hacc : ∀ a ∈ acc, a.1 < k) :
    objInsert k v (acc ++ (k, w) :: rest) = acc ++ (k, v) :: rest := by
  induction acc with
  | nil => simp [objInsert, lt_irrefl]
  | cons a as ih =>
    obtain ⟨ka, va⟩ := a
    have hlt : ka < k := hacc (ka, va) (List.mem_cons_self _ _)
    simp only [List.cons_append, objInsert,
      if_neg (not_lt_of_gt hlt), if_neg (ne_of_gt hlt), List.append_eq]
    rw [ih (fun a ha => hacc a (List.mem_cons_of_mem _ ha))]

theorem objRemove_append_at {k : String} {w : JVal}
    {acc rest : List (String × JVal)} (hacc : ∀ a ∈ acc, a.1 ≠ k) :
    objRemove k (acc ++ (k, w) :: rest) = acc ++ rest := by
  induction acc with
  | nil => simp [objRemove]
  | cons a as ih =>
    obtain ⟨ka, va⟩ := a
    have hne : k ≠ ka := fun h => hacc (ka, va) (List.mem_cons_self _ _) (by simp [h])
    simp only [List.cons_append, objRemove, if_neg hne, List.append_eq]
    rw [ih (fun a ha => hacc a (List.mem_cons_of_mem _ ha))]

/-- Two sorted field lists that agree on every lookup are equal. -/
theorem KSorted_ext :
    ∀ {fs gs : List (String × JVal)}, KSorted fs → KSorted gs →
      (∀ k, objGet k fs = objGet k gs) → fs = gs := by
  intro fs
  induction fs with
  | nil =>
    intro gs _ _ h
    cases gs with
    | nil => rfl
    | cons q qs =>
      obtain ⟨kq, vq⟩ := q
      have := h kq
      simp [objGet] at this
  | cons p ps ih =>
    intro gs hf hg h
    obtain ⟨kp, vp⟩ := p
    cases gs with
    | nil =>
      have := h kp
      simp [objGet] at this
    | cons q qs =>
      obtain ⟨kq, vq⟩ := q
      have hkeq : kp = kq := by
        by_contra hne
        rcases lt_trichotomy kp kq with hlt | heq | hgt
        · -- kp would have to occur in qs, contradicting sortedness of gs
          have h1 := h kp
          simp only [objGet, if_pos rfl, if_neg (fun hh : kp = kq => hne hh)] at h1
          have hmem := objGet_mem h1.symm
          have := KSorted.head_lt hg _ hmem
          simp only at this
          exact absurd (lt_trans hlt this) (lt_irrefl _)
        · exact hne heq
        · have h1 := h kq
          have hne' : kq ≠ kp := fun hh => hne hh.symm
          simp only [objGet, if_pos rfl, if_neg hne'] at h1
          have hmem := objGet_mem h1
          have := KSorted.head_lt hf _ hmem
          simp only at this
          exact absurd (lt_trans hgt this) (lt_irrefl _)
      subst hkeq
      have hveq : vp = vq := by
        have h1 := h kp
        simp [objGet] at h1
        exact h1
      subst hveq
      have htail : ∀ k, objGet k ps = objGet k qs := by
        intro k
        by_cases hk : k = kp
        · subst hk
          have h1 : objGet k ps = none := by
            rw [objGet_eq_none_iff]
            intro hmem
            simp only [List.mem_map] at hmem
            obtain ⟨q, hq, rfl⟩ := hmem
            exact absurd (KSorted.head_lt hf q hq) (lt_irrefl _)
          have h2 : objGet k qs = none := by
            rw [objGet_eq_none_iff]
            intro hmem
            simp only [List.mem_map] at hmem
            obtain ⟨q, hq, rfl⟩ := hmem
            exact absurd (KSorted.head_lt hg q hq) (lt_irrefl _)
          rw [h1, h2]
        · have h1 := h k
          simp only [objGet, if_neg hk] at h1
          exact h1
      rw [ih (KSorted.tail' hf) (KSorted.tail' hg) htail]

/-! ### Lemmas about array-element operations -/

theorem getElem?_append_cons (pre : List JVal) (x : JVal) (xs : List JVal) :
    (pre ++ x :: xs)[pre.length]? = some x := by
  induction pre with
  | nil => simp
  | cons a as ih => simpa using ih

theorem listSetAt_append (pre : List JVal) (v x : JVal) (xs : List JVal) :
    listSetAt pre.length v (pre ++ x :: xs) = some (pre ++ v :: xs) := by
  induction pre with
  | nil => rfl
  | cons a as ih => simp [listSetAt, ih]

theorem listRemoveAt_append (pre : List JVal) (x : JVal) (xs : List JVal) :
    listRemoveAt pre.length (pre ++ x :: xs) = some (pre ++ xs) := by
  induction pre with
  | nil => rfl
  | cons a as ih => simp [listRemoveAt, ih]

theorem listInsertAt_append_end (pre : List JVal) (v : JVal) :
    listInsertAt pre.length v pre = some (pre ++ [v]) := by
  induction pre with
  | nil => rfl
  | cons a as ih => simp [listInsertAt, ih]

theorem listSetAt_self {v : JVal} :
    ∀ {i : Nat} {xs : List JVal}, xs[i]? = some v → listSetAt i v xs = some xs := by
  intro i
  induction i with
  | zero =>
    intro xs h
    cases xs with
    | nil => simp at h
    | cons x xs => simp at h; simp [listSetAt, h]
  | succ i ih =>
    intro xs h
    cases xs with
    | nil => simp at h
    | cons x xs =>
      simp at h
      simp [listSetAt, ih h]

theorem listSetAt_get {a : JVal} :
    ∀ {i : Nat} {xs xs' : List JVal}, listSetAt i a xs = some xs' →
      xs'[i]? = some a := by
  intro i
  induction i with
  | zero =>
    intro xs xs' h
    cases xs with
    | nil => simp [listSetAt] at h
    | cons x xs =>
      simp [listSetAt] at h
      simp [← h]
  | succ i ih =>
    intro xs xs' h
    cases xs with
    | nil => simp [listSetAt] at h
    | cons x xs =>
      simp only [listSetAt, Option.map_eq_some'] at h
      obtain ⟨ys, hys, rfl⟩ := h
      simpa using ih hys

theorem listSetAt_listSetAt {a b : JVal} :
    ∀ {i : Nat} {xs xs' : List JVal}, listSetAt i a xs = some xs' →
      listSetAt i b xs' = listSetAt i b xs := by
  intro i
  induction i with
  | zero =>
    intro xs xs' h
    cases xs with
    | nil => simp [listSetAt] at h
    | cons x xs =>
      simp [listSetAt] at h
      simp [← h, listSetAt]
  | succ i ih =>
    intro xs xs' h
    cases xs with
    | nil => simp [listSetAt] at h
    | cons x xs =>
      simp only [listSetAt, Option.map_eq_some'] at h
      obtain ⟨ys, hys, rfl⟩ := h
      simp [listSetAt, ih hys]

/-! ### Shape of diff-produced operations -/

/-- An operation safe to appear (prefixed) under a deeper pointer: the diff
never produces a root-level `add` or `remove`. -/
def rootSafe : Op → Bool
  | .add [] _ => false
  | .remove [] => false
  | _ => true

theorem rootSafe_nestOp (t : PTok) (op : Op) : rootSafe (nestOp t op) = true := by
  cases op <;> rfl

theorem diffObj_rootSafe (rf : List (String × JVal)) :
    ∀ (lf : List (String × JVal)), ∀ op ∈ diffObj rf lf, rootSafe op = true := by
  intro lf
  induction lf with
  | nil => intro op h; simp [diffObj] at h
  | cons p rest ih =>
    obtain ⟨k, lv⟩ := p
    intro op h
    rw [diffObj] at h
    rcases List.mem_append.mp h with h | h
    · rcases hrf : objGet k rf with _ | rv
      · rw [hrf] at h
        simp at h
        simp [h, rootSafe]
      · rw [hrf] at h
        simp only [List.mem_map] at h
        obtain ⟨op', _, rfl⟩ := h
        exact rootSafe_nestOp _ _
    · exact ih op h

theorem diffArr_rootSafe :
    ∀ (lx rx : List JVal) (i : Nat), ∀ op ∈ diffArr i lx rx, rootSafe op = true := by
  intro lx
  induction lx with
  | nil => intro rx i op h; rw [diffArr] at h; simp at h
  | cons x xs ih =>
    intro rx i op h
    cases rx with
    | nil => rw [diffArr] at h; simp at h
    | cons y ys =>
      rw [diffArr] at h
      rcases List.mem_append.mp h with h | h
      · simp only [List.mem_map] at h
        obtain ⟨op', _, rfl⟩ := h
        exact rootSafe_nestOp _ _
      · exact ih ys (i + 1) op h

theorem addsArr_rootSafe :
    ∀ (ys : List JVal) (i : Nat), ∀ op ∈ addsArr i ys, rootSafe op = true := by
  intro ys
  induction ys with
  | nil => intro i op h; simp [addsArr] at h
  | cons y ys ih =>
    intro i op h
    rw [addsArr] at h
    rcases List.mem_cons.mp h with h | h
    · simp [h, rootSafe]
    · exact ih _ op h

theorem diff_rootSafe (l r : JVal) : ∀ op ∈ diff l r, rootSafe op = true := by
  intro op h
  cases l <;> cases r <;>
    first
    | (simp [diff] at h
       try split_ifs at h
       all_goals simp_all [rootSafe]
       done)
    | (rw [diff] at h
       rcases List.mem_append.mp h with h | h
       · rcases List.mem_append.mp h with h | h
         · exact diffArr_rootSafe _ _ _ op h
         · rcases List.eq_of_mem_replicate h with rfl
           rfl
       · exact addsArr_rootSafe _ _ op h)
    | (rw [diff] at h
       rcases List.mem_append.mp h with h | h
       · exact diffObj_rootSafe _ _ op h
       · simp only [List.mem_map] at h
         obtain ⟨p, _, rfl⟩ := h
         rfl)

/-! ### Composition lemmas for patch application -/

theorem applyPatch_cons (v : JVal) (op : Op) (ops : List Op) :
    applyPatch v (op :: ops) = (applyOp v op).bind (fun v' => applyPatch v' ops) := by
  simp only [applyPatch]
  cases applyOp v op <;> simp

theorem applyPatch_append (v : JVal) (a b : List Op) :
    applyPatch v (a ++ b) = (applyPatch v a).bind (fun v' => applyPatch v' b) := by
  induction a generalizing v with
  | nil => simp [applyPatch]
  | cons op rest ih =>
    simp only [List.cons_append, applyPatch]
    cases applyOp v op with
    | none => simp
    | some v' => simp [ih]

theorem listSetAt_some_of_some {a : JVal} :
    ∀ {i : Nat} {xs xs' : List JVal}, listSetAt i a xs = some xs' →
      ∀ b, ∃ ys, listSetAt i b xs = some ys := by
  intro i
  induction i with
  | zero =>
    intro xs xs' h b
    cases xs with
    | nil => simp [listSetAt] at h
    | cons x xs => exact ⟨b :: xs, rfl⟩
  | succ i ih =>
    intro xs xs' h b
    cases xs with
    | nil => simp [listSetAt] at h
    | cons x xs =>
      simp only [listSetAt, Option.map_eq_some'] at h
      obtain ⟨ys, hys, rfl⟩ := h
      obtain ⟨zs, hzs⟩ := ih hys b
      exact ⟨x :: zs, by simp [listSetAt, hzs]⟩

/-! ### Navigation: applying pointer-prefixed operations -/

theorem applyOp_obj_nest {k : String} {fs : List (String × JVal)} {c : JVal}
    (hget : objGet k fs = some c) {op : Op} (hsafe : rootSafe op = true) :
    applyOp (.obj fs) (nestOp (.key k) op)
      = (applyOp c op).bind (fun c' => some (.obj (objInsert k c' fs))) := by
  cases op with
  | add p w =>
    cases p with
    | nil => simp [nestOp, applyOp, opAdd]
    | cons t rest =>
      simp only [nestOp, applyOp, opAdd, hget, Option.bind_eq_bind,
        Option.some_bind]
  | remove p =>
    cases p with
    | nil => simp [rootSafe] at hsafe
    | cons t rest =>
      simp only [nestOp, applyOp, opRemove, hget, Option.bind_eq_bind,
        Option.some_bind]
  | replace p w =>
    cases p with
    | nil =>
      simp [nestOp, applyOp, opReplace, hget]
    | cons t rest =>
      simp only [nestOp, applyOp, opReplace, hget, Option.bind_eq_bind,
        Option.some_bind]

theorem applyOp_arr_nest {i : Nat} {xs : List JVal} {c : JVal}
    (hget : xs[i]? = some c) {op : Op} (hsafe : rootSafe op = true) :
    applyOp (.arr xs) (nestOp (.idx i) op)
      = (applyOp c op).bind (fun c' => (listSetAt i c' xs).map JVal.arr) := by
  cases op with
  | add p w =>
    cases p with
    | nil => simp [rootSafe] at hsafe
    | cons t rest =>
      simp only [nestOp, applyOp, opAdd, hget, Option.bind_eq_bind,
        Option.some_bind]
  | remove p =>
    cases p with
    | nil => simp [rootSafe] at hsafe
    | cons t rest =>
      simp only [nestOp, applyOp, opRemove, hget, Option.bind_eq_bind,
        Option.some_bind]
  | replace p w =>
    cases p with
    | nil =>
      simp [nestOp, applyOp, opReplace]
    | cons t rest =>
      simp only [nestOp, applyOp, opReplace, hget, Option.bind_eq_bind,
        Option.some_bind]

theorem applyPatch_obj_nest {k : String} :
    ∀ (ops : List Op) (fs : List (String × JVal)) (c : JVal),
      KSorted fs → objGet k fs = some c → (∀ op ∈ ops, rootSafe op = true) →
      applyPatch (.obj fs) (ops.map (nestOp (.key k)))
        = (applyPatch c ops).bind (fun c' => some (.obj (objInsert k c' fs))) := by
  intro ops
  induction ops with
  | nil =>
    intro fs c hs hget _
    simp [applyPatch, objInsert_self hs hget]
  | cons op rest ih =>
    intro fs c hs hget hsafe
    simp only [List.map_cons]
    rw [applyPatch_cons, applyPatch_cons,
      applyOp_obj_nest hget (hsafe op (List.mem_cons_self _ _))]
    cases hop : applyOp c op with
    | none => simp
    | some c1 =>
      have hs' : KSorted (objInsert k c1 fs) := KSorted_objInsert _ _ hs
      have hget' : objGet k (objInsert k c1 fs) = some c1 := by
        rw [objGet_objInsert]; simp
      have hsafe' : ∀ op ∈ rest, rootSafe op = true :=
        fun op' h => hsafe op' (List.mem_cons_of_mem _ h)
      simp only [Option.some_bind]
      rw [ih _ _ hs' hget' hsafe']
      cases applyPatch c1 rest <;> simp [objInsert_objInsert]

theorem applyPatch_arr_nest {i : Nat} :
    ∀ (ops : List Op) (xs : List JVal) (c : JVal),
      xs[i]? = some c → (∀ op ∈ ops, rootSafe op = true) →
      applyPatch (.arr xs) (ops.map (nestOp (.idx i)))
        = (applyPatch c ops).bind (fun c' => (listSetAt i c' xs).map JVal.arr) := by
  intro ops
  induction ops with
  | nil =>
    intro xs c hget _
    simp [applyPatch, listSetAt_self hget]
  | cons op rest ih =>
    intro xs c hget hsafe
    simp only [List.map_cons]
    rw [applyPatch_cons, applyPatch_cons,
      applyOp_arr_nest hget (hsafe op (List.mem_cons_self _ _))]
    cases hop : applyOp c op with
    | none => simp
    | some c1 =>
      obtain ⟨xs1, hxs1⟩ := listSetAt_some_of_some (listSetAt_self hget) c1
      have hget' : xs1[i]? = some c1 := listSetAt_get hxs1
      have hsafe' : ∀ op ∈ rest, rootSafe op = true :=
        fun op' h => hsafe op' (List.mem_cons_of_mem _ h)
      simp only [Option.some_bind, hxs1, Option.map_some']
      rw [ih _ _ hget' hsafe']
      cases applyPatch c1 rest with
      | none => simp
      | some c2 => simp [listSetAt_listSetAt hxs1]

/-! ### Round-trip: object part -/

/-- The left object after its member-wise diff ops: members shared with
`rf` carry `rf`'s values, members absent from `rf` are gone. -/
def restrictTo (rf lf : List (String × JVal)) : List (String × JVal) :=
  lf.filterMap (fun p => (objGet p.1 rf).map (fun rv => (p.1, rv)))

theorem KSorted_of_keys_eq {fs gs : List (String × JVal)}
    (h : fs.map Prod.fst = gs.map Prod.fst) (hf : KSorted fs) : KSorted gs := by
  unfold KSorted at hf ⊢
  rw [← h]
  exact hf

theorem diffObj_apply (rf : List (String × JVal)) :
    ∀ (lf acc : List (String × JVal)),
      KSorted (acc ++ lf) →
      (∀ k lv rv, (k, lv) ∈ lf → objGet k rf = some rv →
        applyPatch lv (diff lv rv) = some rv) →
      applyPatch (.obj (acc ++ lf)) (diffObj rf lf)
        = some (.obj (acc ++ restrictTo rf lf)) := by
  intro lf
  induction lf with
  | nil =>
    intro acc _ _
    simp [diffObj, applyPatch, restrictTo]
  | cons p rest ih =>
    intro acc hs hrec
    obtain ⟨k, lv⟩ := p
    have hacc_lt : ∀ a ∈ acc, a.1 < k := by
      intro a ha
      unfold KSorted at hs
      rw [List.map_append, List.pairwise_append] at hs
      exact hs.2.2 a.1 (List.mem_map_of_mem Prod.fst ha) k (by simp)
    have hacc_ne : ∀ a ∈ acc, a.1 ≠ k := fun a ha => ne_of_lt (hacc_lt a ha)
    rw [diffObj, applyPatch_append]
    cases hrf : objGet k rf with
    | some rv =>
      have hget : objGet k (acc ++ (k, lv) :: rest) = some lv :=
        objGet_append_at hacc_ne
      rw [applyPatch_obj_nest (diff lv rv) _ lv hs hget (diff_rootSafe lv rv)]
      rw [hrec k lv rv (List.mem_cons_self _ _) hrf]
      simp only [Option.some_bind]
      rw [objInsert_append_at hacc_lt]
      have hre : acc ++ (k, rv) :: rest = (acc ++ [(k, rv)]) ++ rest := by simp
      have hs' : KSorted ((acc ++ [(k, rv)]) ++ rest) := by
        refine KSorted_of_keys_eq ?_ hs
        simp
      have hrec' : ∀ k' lv' rv', (k', lv') ∈ rest → objGet k' rf = some rv' →
          applyPatch lv' (diff lv' rv') = some rv' :=
        fun k' lv' rv' hm => hrec k' lv' rv' (List.mem_cons_of_mem _ hm)
      rw [hre, ih ((acc ++ [(k, rv)])) hs' hrec']
      simp [restrictTo, hrf]
    | none =>
      have hget : objGet k (acc ++ (k, lv) :: rest) = some lv :=
        objGet_append_at hacc_ne
      have hrm : applyPatch (.obj (acc ++ (k, lv) :: rest)) [.remove [.key k]]
          = some (.obj (acc ++ rest)) := by
        rw [applyPatch_cons]
        simp only [applyOp, opRemove, hget, Option.isSome_some, if_pos]
        rw [objRemove_append_at hacc_ne]
        simp [applyPatch]
      rw [hrm]
      simp only [Option.some_bind]
      have hs' : KSorted (acc ++ rest) := by
        unfold KSorted at hs ⊢
        refine hs.sublist ?_
        rw [List.map_append, List.map_append]
        refine List.Sublist.append (List.Sublist.refl _) ?_
        simp only [List.map_cons]
        exact List.Sublist.cons _ (List.Sublist.refl _)
      have hrec' : ∀ k' lv' rv', (k', lv') ∈ rest → objGet k' rf = some rv' →
          applyPatch lv' (diff lv' rv') = some rv' :=
        fun k' lv' rv' hm => hrec k' lv' rv' (List.mem_cons_of_mem _ hm)
      rw [ih acc hs' hrec']
      simp [restrictTo, hrf]

theorem applyPatch_obj_adds :
    ∀ (ps : List (String × JVal)) (fs : List (String × JVal)),
      applyPatch (.obj fs) (ps.map (fun p => Op.add [.key p.1] p.2))
        = some (.obj (ps.foldl (fun fs p => objInsert p.1 p.2 fs) fs)) := by
  intro ps
  induction ps with
  | nil => intro fs; simp [applyPatch]
  | cons p rest ih =>
    intro fs
    obtain ⟨k, v⟩ := p
    simp only [List.map_cons, List.foldl_cons]
    rw [applyPatch_cons]
    simp only [applyOp, opAdd, Option.some_bind]
    exact ih (objInsert k v fs)

/-- First-hit-wins combination of two lookups. -/
def optOr : Option JVal → Option JVal → Option JVal
  | some v, _ => some v
  | none, o => o

theorem objGet_foldl_insert (k : String) :
    ∀ (ps fs : List (String × JVal)), (ps.map Prod.fst).Nodup →
      objGet k (ps.foldl (fun fs p => objInsert p.1 p.2 fs) fs)
        = optOr (objGet k ps) (objGet k fs) := by
  intro ps
  induction ps with
  | nil => intro fs _; simp [objGet, optOr]
  | cons p rest ih =>
    intro fs hnd
    obtain ⟨kp, vp⟩ := p
    simp only [List.map_cons, List.nodup_cons] at hnd
    simp only [List.foldl_cons]
    rw [ih (objInsert kp vp fs) hnd.2]
    by_cases hk : k = kp
    · subst hk
      have hnone : objGet k rest = none := by
        rw [objGet_eq_none_iff]
        exact hnd.1
      simp [objGet, hnone, objGet_objInsert, optOr]
    · simp [objGet, hk, objGet_objInsert, optOr]

theorem KSorted_foldl_insert :
    ∀ (ps fs : List (String × JVal)), KSorted fs →
      KSorted (ps.foldl (fun fs p => objInsert p.1 p.2 fs) fs) := by
  intro ps
  induction ps with
  | nil => intro fs h; exact h
  | cons p rest ih =>
    intro fs h
    simp only [List.foldl_cons]
    exact ih _ (KSorted_objInsert _ _ h)

theorem objGet_restrictTo (k : String) (rf : List (String × JVal)) :
    ∀ (lf : List (String × JVal)),
      objGet k (restrictTo rf lf)
        = if (objGet k lf).isSome then objGet k rf else none := by
  intro lf
  induction lf with
  | nil => simp [restrictTo, objGet]
  | cons p rest ih =>
    obtain ⟨kl, vl⟩ := p
    by_cases hk : k = kl
    · subst hk
      cases hrf : objGet k rf with
      | some rv => simp [restrictTo, hrf, objGet]
      | none =>
        simp only [restrictTo, List.filterMap_cons, hrf, Option.map_none']
        rw [show (List.filterMap
            (fun p => (objGet p.1 rf).map (fun rv => (p.1, rv))) rest)
          = restrictTo rf rest from rfl, ih]
        simp [objGet, hrf]
    · cases hrf : objGet kl rf with
      | some rv =>
        simp only [restrictTo, List.filterMap_cons, hrf, Option.map_some']
        rw [show (List.filterMap
            (fun p => (objGet p.1 rf).map (fun rv => (p.1, rv))) rest)
          = restrictTo rf rest from rfl]
        simp [objGet, hk, ih]
      | none =>
        simp only [restrictTo, List.filterMap_cons, hrf, Option.map_none']
        rw [show (List.filterMap
            (fun p => (objGet p.1 rf).map (fun rv => (p.1, rv))) rest)
          = restrictTo rf rest from rfl, ih]
        simp [objGet, hk]

theorem restrictTo_keys_sublist (rf : List (String × JVal)) :
    ∀ (lf : List (String × JVal)),
      List.Sublist ((restrictTo rf lf).map Prod.fst) (lf.map Prod.fst) := by
  intro lf
  induction lf with
  | nil => simp [restrictTo]
  | cons p rest ih =>
    obtain ⟨kl, vl⟩ := p
    cases hrf : objGet kl rf with
    | some rv =>
      simp only [restrictTo, List.filterMap_cons, hrf, Option.map_some',
        List.map_cons]
      exact List.Sublist.cons₂ _ ih
    | none =>
      simp only [restrictTo, List.filterMap_cons, hrf, Option.map_none',
        List.map_cons]
      exact List.Sublist.cons _ ih

theorem objGet_filter_key (k : String) (pred : String → Bool) :
    ∀ (rf : List (String × JVal)),
      objGet k (rf.filter (fun p => pred p.1))
        = if pred k then objGet k rf else none := by
  intro rf
  induction rf with
  | nil => simp [objGet]
  | cons p rest ih =>
    obtain ⟨kr, vr⟩ := p
    by_cases hk : k = kr
    · subst hk
      cases hp : pred k <;> simp [List.filter_cons, hp, objGet, ih]
    · cases hp : pred kr <;> simp [List.filter_cons, hp, objGet, hk, ih]

theorem KSorted.keys_nodup {fs : List (String × JVal)} (h : KSorted fs) :
    (fs.map Prod.fst).Nodup :=
  h.imp ne_of_lt

/-- Re-inserting the right-only members into the restricted object rebuilds
exactly the right object. -/
theorem obj_rebuild (lf rf : List (String × JVal))
    (hlf : KSorted lf) (hrf : KSorted rf) :
    (rf.filter (fun p => (objGet p.1 lf).isNone)).foldl
        (fun fs p => objInsert p.1 p.2 fs) (restrictTo rf lf) = rf := by
  have hnd : ((rf.filter (fun p => (objGet p.1 lf).isNone)).map Prod.fst).Nodup := by
    refine List.Nodup.sublist ?_ hrf.keys_nodup
    exact List.Sublist.map _ (List.filter_sublist _)
  have hbase : KSorted (restrictTo rf lf) := by
    unfold KSorted
    exact hlf.sublist (restrictTo_keys_sublist rf lf)
  refine KSorted_ext (KSorted_foldl_insert _ _ hbase) hrf ?_
  intro k
  rw [objGet_foldl_insert k _ _ hnd, objGet_restrictTo,
    objGet_filter_key k (fun s => (objGet s lf).isNone)]
  cases hl : objGet k lf with
  | some lv =>
    simp [optOr]
  | none =>
    simp only [Option.isNone_none, Option.isSome_none, Bool.false_eq_true,
      if_true, if_false]
    cases objGet k rf <;> simp [optOr]

/-! ### Round-trip: array part -/

/-- The left array after the index-wise diff of the common prefix: right
values over the common length, left tail beyond it. -/
def mergeFront : List JVal → List JVal → List JVal
  | [], _ => []
  | x :: xs, [] => x :: xs
  | _ :: xs, y :: ys => y :: mergeFront xs ys

theorem mergeFront_short :
    ∀ {xs ys : List JVal}, xs.length ≤ ys.length →
      mergeFront xs ys = ys.take xs.length := by
  intro xs
  induction xs with
  | nil => intro ys _; rw [mergeFront]; simp
  | cons x xs ih =>
    intro ys h
    cases ys with
    | nil => simp at h
    | cons y ys =>
      rw [mergeFront]
      simp only [List.length_cons, List.take_succ_cons]
      rw [ih (by simpa using h)]

theorem mergeFront_long :
    ∀ {ys xs : List JVal}, ys.length ≤ xs.length →
      mergeFront xs ys = ys ++ xs.drop ys.length := by
  intro ys
  induction ys with
  | nil =>
    intro xs _
    cases xs <;> rw [mergeFront] <;> simp
  | cons y ys ih =>
    intro xs h
    cases xs with
    | nil => simp at h
    | cons x xs =>
      rw [mergeFront]
      simp only [List.length_cons, List.drop_succ_cons, List.cons_append]
      rw [ih (by simpa using h)]

theorem diffArr_apply :
    ∀ (xs ys pre : List JVal),
      (∀ x y, x ∈ xs → y ∈ ys → applyPatch x (diff x y) = some y) →
      applyPatch (.arr (pre ++ xs)) (diffArr pre.length xs ys)
        = some (.arr (pre ++ mergeFront xs ys)) := by
  intro xs
  induction xs with
  | nil =>
    intro ys pre _
    rw [diffArr, mergeFront]
    simp [applyPatch]
  | cons x xs ih =>
    intro ys pre hrec
    cases ys with
    | nil =>
      rw [diffArr, mergeFront]
      simp [applyPatch]
    | cons y ys =>
      rw [diffArr, mergeFront, applyPatch_append]
      rw [applyPatch_arr_nest (diff x y) _ x (getElem?_append_cons pre x xs)
        (diff_rootSafe x y)]
      rw [hrec x y (List.mem_cons_self _ _) (List.mem_cons_self _ _)]
      simp only [Option.some_bind]
      rw [listSetAt_append]
      simp only [Option.map_some', Option.some_bind]
      have hre : pre ++ y :: xs = (pre ++ [y]) ++ xs := by simp
      have hlen : pre.length + 1 = (pre ++ [y]).length := by simp
      rw [hre, hlen, ih ys (pre ++ [y])
        (fun x' y' hx hy =>
          hrec x' y' (List.mem_cons_of_mem _ hx) (List.mem_cons_of_mem _ hy))]
      simp

theorem applyPatch_arr_removes (pre : List JVal) :
    ∀ (tail : List JVal),
      applyPatch (.arr (pre ++ tail))
          (List.replicate tail.length (.remove [.idx pre.length]))
        = some (.arr pre) := by
  intro tail
  induction tail with
  | nil => simp [applyPatch]
  | cons t rest ih =>
    simp only [List.length_cons, List.replicate_succ]
    rw [applyPatch_cons]
    simp only [applyOp, opRemove, listRemoveAt_append, Option.map_some',
      Option.some_bind]
    exact ih

theorem applyPatch_arr_adds :
    ∀ (tail pre : List JVal),
      applyPatch (.arr pre) (addsArr pre.length tail) = some (.arr (pre ++ tail)) := by
  intro tail
  induction tail with
  | nil => intro pre; rw [addsArr]; simp [applyPatch]
  | cons y ys ih =>
    intro pre
    rw [addsArr, applyPatch_cons]
    simp only [applyOp, opAdd, listInsertAt_append_end, Option.map_some',
      Option.some_bind]
    have hlen : pre.length + 1 = (pre ++ [y]).length := by simp
    rw [hlen, ih (pre ++ [y])]
    simp

/-! ### The round-trip law -/

theorem sizeOf_lt_of_mem_arr {x : JVal} {xs : List JVal} (h : x ∈ xs) :
    sizeOf x < sizeOf (JVal.arr xs) := by
  have h1 := List.sizeOf_lt_of_mem h
  have h2 : sizeOf (JVal.arr xs) = 1 + sizeOf xs := by simp
  omega

theorem sizeOf_lt_of_mem_obj {k : String} {v : JVal} {fs : List (String × JVal)}
    (h : (k, v) ∈ fs) : sizeOf v < sizeOf (JVal.obj fs) := by
  have h1 := List.sizeOf_lt_of_mem h
  have h2 : sizeOf (k, v) = 1 + sizeOf k + sizeOf v := rfl
  have h3 : sizeOf (JVal.obj fs) = 1 + sizeOf fs := by simp
  omega

theorem diff_arr_case
    (n : Nat)
    (ih : ∀ (l r : JVal), sizeOf l + sizeOf r ≤ n →
      wfJ l = true → wfJ r = true → applyPatch l (diff l r) = some r)
    (lx rx : List JVal)
    (hwl : wfJ (JVal.arr lx) = true) (hwr : wfJ (JVal.arr rx) = true)
    (hsz : sizeOf (JVal.arr lx) + sizeOf (JVal.arr rx) ≤ n + 1) :
    applyPatch (JVal.arr lx) (diff (JVal.arr lx) (JVal.arr rx))
      = some (JVal.arr rx) := by
  have hrec : ∀ x y, x ∈ lx → y ∈ rx →
      applyPatch x (diff x y) = some y := by
    intro x y hx hy
    have h1 := sizeOf_lt_of_mem_arr hx
    have h2 := sizeOf_lt_of_mem_arr hy
    exact ih x y (by omega) (wfJ_arr.mp hwl x hx) (wfJ_arr.mp hwr y hy)
  have hphase := diffArr_apply lx rx [] hrec
  simp only [List.nil_append, List.length_nil] at hphase
  rw [diff]
  simp only [applyPatch_append]
  rw [hphase]
  simp only [Option.some_bind]
  by_cases hcmp : lx.length ≤ rx.length
  · have h0 : lx.length - rx.length = 0 := by omega
    rw [mergeFront_short hcmp, h0, List.replicate_zero]
    simp only [applyPatch, Option.some_bind]
    have hlen : (rx.take lx.length).length = lx.length := by
      simp [hcmp]
    have hadds := applyPatch_arr_adds (rx.drop lx.length) (rx.take lx.length)
    rw [hlen, List.take_append_drop] at hadds
    exact hadds
  · have hle : rx.length ≤ lx.length := by omega
    rw [mergeFront_long hle]
    have hlen : lx.length - rx.length = (lx.drop rx.length).length := by
      simp
    rw [hlen, applyPatch_arr_removes rx (lx.drop rx.length)]
    simp only [Option.some_bind]
    have hnil : rx.drop lx.length = [] := List.drop_eq_nil_of_le hle
    rw [hnil, addsArr]
    simp [applyPatch]

theorem diff_obj_case
    (n : Nat)
    (ih : ∀ (l r : JVal), sizeOf l + sizeOf r ≤ n →
      wfJ l = true → wfJ r = true → applyPatch l (diff l r) = some r)
    (lf rf : List (String × JVal))
    (hwl : wfJ (JVal.obj lf) = true) (hwr : wfJ (JVal.obj rf) = true)
    (hsz : sizeOf (JVal.obj lf) + sizeOf (JVal.obj rf) ≤ n + 1) :
    applyPatch (JVal.obj lf) (diff (JVal.obj lf) (JVal.obj rf))
      = some (JVal.obj rf) := by
  have hKl := (wfJ_obj.mp hwl).1
  have hvl := (wfJ_obj.mp hwl).2
  have hKr := (wfJ_obj.mp hwr).1
  have hvr := (wfJ_obj.mp hwr).2
  have hrec : ∀ k lv rv, (k, lv) ∈ lf → objGet k rf = some rv →
      applyPatch lv (diff lv rv) = some rv := by
    intro k lv rv hm hg
    have h1 : sizeOf lv < sizeOf (JVal.obj lf) := sizeOf_lt_of_mem_obj hm
    have h2 : sizeOf rv < sizeOf (JVal.obj rf) := by
      have h4 := objGet_sizeOf hg
      have h5 : sizeOf (JVal.obj rf) = 1 + sizeOf rf := by simp
      omega
    exact ih lv rv (by omega) (hvl (k, lv) hm) (hvr (k, rv) (objGet_mem hg))
  have hphase := diffObj_apply rf lf [] (by simpa using hKl) hrec
  simp only [List.nil_append] at hphase
  rw [diff]
  simp only [applyPatch_append]
  rw [hphase]
  simp only [Option.some_bind]
  rw [applyPatch_obj_adds, obj_rebuild lf rf hKl hKr]

theorem applyPatch_diff_wf :
    ∀ (n : Nat) (l r : JVal), sizeOf l + sizeOf r ≤ n →
      wfJ l = true → wfJ r = true → applyPatch l (diff l r) = some r := by
  intro n
  induction n with
  | zero =>
    intro l r h _ _
    exfalso
    cases l <;> simp_all
  | succ n ih =>
    intro l r hsz hwl hwr
    rcases l with _ | bl | il | sl | lx | lf <;>
      rcases r with _ | br | ir | sr | rx | rf <;>
      first
      | (exact diff_arr_case n ih lx rx hwl hwr hsz)
      | (exact diff_obj_case n ih lf rf hwl hwr hsz)
      | (simp [diff, applyPatch, applyOp, opReplace]
         done)
      | (simp only [diff]
         split_ifs with heq
         · rw [heq]
           simp [applyPatch]
         · simp [applyPatch, applyOp, opReplace]
         done)

/-- The patch codec's round-trip law (spec §4.1): diffing two values and
applying the resulting patch to the first reconstructs the second. -/
theorem apply_diff_eq (l r : JVal) (hl : wfJ l = true) (hr : wfJ r = true) :
    applyPatch l (diff l r) = some r :=
  applyPatch_diff_wf (sizeOf l + sizeOf r) l r le_rfl hl hr

/-! ## The engine (model of the repository sources)

From here on every definition is translated from a function of the
repository; the file and item are named in each doc comment. -/

/-- `src/error.rs` — the crate's error enum.  `SerializationFailed` carries
a `serde_json::Error` payload in Rust; the payload is irrelevant to every
claim and is dropped here. -/
inductive Error : Type where
  | MissingServerSignals
  | AddingSignalFailed
  | AddingChannelHandlerFailed
  | DeletingSignalFailed
  | DeletingChannelHandlerFailed
  | UpdateSignalFailed
  | NotAvailableOnSignal
  | NotAvailableOnClient
  | SerializationFailed
deriving DecidableEq

/-- `src/messages.rs` — `SignalUpdate`: a named patch. -/
structure SignalUpdate where
  name : String
  patch : List Op
deriving DecidableEq

/-- `src/messages.rs` — `SignalUpdate::new_from_json`. -/
def SignalUpdate.new_from_json (name : String) (old new : JVal) : SignalUpdate :=
  { name := name, patch := diff old new }

/-- `src/messages.rs` — `SignalUpdate::new_from_patch`. -/
def SignalUpdate.new_from_patch (name : String) (patch : List Op) : SignalUpdate :=
  { name := name, patch := patch }

/-- `src/messages.rs` — `ServerSignalMessage`. -/
inductive ServerSignalMessage : Type where
  | establish (name : String)
  | establishResponse (name : String) (value : JVal)
  | update (u : SignalUpdate)
deriving DecidableEq

/-- `src/messages.rs` — `BiDirectionalMessage`. -/
inductive BiDirectionalMessage : Type where
  | establish (name : String)
  | establishResponse (name : String) (value : JVal)
  | update (u : SignalUpdate)
deriving DecidableEq

/-- `ChannelMessage` as consumed by `src/lib.rs` (the `EstablishResponse`
acknowledgement carries only the name, per spec I5). -/
inductive ChannelMessage : Type where
  | establish (name : String)
  | establishResponse (name : String)
  | message (name : String) (value : JVal)
deriving DecidableEq

/-- `src/messages.rs` / `src/lib.rs` — the top-level wire frame union. -/
inductive Messages : Type where
  | serverSignal (m : ServerSignalMessage)
  | biDirectional (m : BiDirectionalMessage)
  | channel (m : ChannelMessage)
deriving DecidableEq

/-- Abstraction of a serde-serializable user type `T`:
`toJson` models `serde_json::to_value` (total here: serializing an
in-memory value never fails for the data types the engine mirrors) and
`fromJson` models the fallible `serde_json::from_value`. -/
structure Codec (T : Type) where
  toJson : T → JVal
  fromJson : JVal → Option T

/-- A codec is lawful when deserialization undoes serialization
(spec §8: `serialize(deserialize(json)) == json` round-trip family). -/
def Codec.Lawful {T : Type} (c : Codec T) : Prop :=
  ∀ t, c.fromJson (c.toJson t) = some t

/-! ### `src/bidirectional/server.rs` — `ServerBidirectionalSignal<T>` -/

/-- The server-side bidirectional signal entry: reactive cell contents
(`value`, the `ArcRwSignal`), JSON shadow (`json_value`, under its
`RwLock`), and the broadcast endpoint modelled as the ordered log of
`(origin, message)` pairs sent to observers. -/
structure ServerBidirectionalSignal (T : Type) where
  initial : T
  name : String
  value : T
  json_value : JVal
  observers : List (Option String × Messages)

/-- `ServerBidirectionalSignal::update_json` (lines 48–72): apply the patch
to the shadow under the exclusive lock; on success reseed the reactive
cell only when an origin id is present (an id-tagged update came from a
remote writer), then broadcast `(id, BiDirectional::Update)`; on patch
failure return `UpdateSignalFailed` with nothing changed. -/
def ServerBidirectionalSignal.update_json {T : Type} (c : Codec T)
    (s : ServerBidirectionalSignal T) (patch : List Op) (id : Option String) :
    ServerBidirectionalSignal T × Except Error Unit :=
  match applyPatch s.json_value patch with
  | some newJson =>
    if id.isSome then
      match c.fromJson newJson with
      | some t =>
        ({ s with
            value := t
            json_value := newJson
            observers := s.observers ++
              [(id, .biDirectional (.update (SignalUpdate.new_from_patch s.name patch)))] },
         .ok ())
      | none => ({ s with json_value := newJson }, .error .SerializationFailed)
    else
      ({ s with
          json_value := newJson
          observers := s.observers ++
            [(id, .biDirectional (.update (SignalUpdate.new_from_patch s.name patch)))] },
       .ok ())
  | none => (s, .error .UpdateSignalFailed)

/-- `ServerBidirectionalSignal::set_json` (lines 73–84): overwrite the
shadow first, then deserialize into the cell; a deserialization failure
leaves the already-overwritten shadow behind. -/
def ServerBidirectionalSignal.set_json {T : Type} (c : Codec T)
    (s : ServerBidirectionalSignal T) (new_value : JVal) :
    ServerBidirectionalSignal T × Except Error Unit :=
  match c.fromJson new_value with
  | some t => ({ s with json_value := new_value, value := t }, .ok ())
  | none => ({ s with json_value := new_value }, .error .SerializationFailed)

/-- `ServerBidirectionalSignal::update_if_changed` (lines 123–136):
serialize the cell, and only when it differs from the shadow diff and
forward to `update_json` with no origin. -/
def ServerBidirectionalSignal.update_if_changed {T : Type} (c : Codec T)
    (s : ServerBidirectionalSignal T) :
    ServerBidirectionalSignal T × Except Error Unit :=
  let new_json := c.toJson s.value
  if s.json_value ≠ new_json then
    s.update_json c (diff s.json_value new_json) none
  else
    (s, .error .UpdateSignalFailed)

/-- `ServerBidirectionalSignal::try_maybe_update` (lines 161–172): run the
user closure on the cell (the closure reports whether it mutated; a
`false` merely untracks the reactive write), then `update_if_changed`,
whose result is discarded. -/
def ServerBidirectionalSignal.try_maybe_update {T U : Type} (c : Codec T)
    (s : ServerBidirectionalSignal T) (f : T → T × Bool × U) :
    ServerBidirectionalSignal T × Option U :=
  let r := f s.value
  let s1 := { s with value := r.1 }
  let s2 := (s1.update_if_changed c).1
  (s2, some r.2.2)

/-! ### `src/bidirectional/client.rs` — `ClientBidirectionalSignal<T>` -/

/-- The client-side bidirectional signal entry; its broadcast endpoint
carries `(origin, SignalUpdate)` pairs. -/
structure ClientBidirectionalSignal (T : Type) where
  name : String
  value : T
  json_value : JVal
  observers : List (Option String × SignalUpdate)

/-- `ClientBidirectionalSignal::update_json` (lines 45–64): apply the patch
to the shadow; on success always reseed the reactive cell from the new
shadow, and broadcast `(None, update)` only when the update carries no
origin id (a local write); a deserialization failure leaves the patched
shadow and reports `SerializationFailed`. -/
def ClientBidirectionalSignal.update_json {T : Type} (c : Codec T)
    (s : ClientBidirectionalSignal T) (patch : List Op) (id : Option String) :
    ClientBidirectionalSignal T × Except Error Unit :=
  match applyPatch s.json_value patch with
  | some newJson =>
    match c.fromJson newJson with
    | some t =>
      if id.isNone then
        ({ s with
            json_value := newJson
            value := t
            observers := s.observers ++
              [(none, SignalUpdate.new_from_patch s.name patch)] },
         .ok ())
      else
        ({ s with json_value := newJson, value := t }, .ok ())
    | none => ({ s with json_value := newJson }, .error .SerializationFailed)
  | none => (s, .error .UpdateSignalFailed)

/-- `ClientBidirectionalSignal::set_json` (lines 65–76). -/
def ClientBidirectionalSignal.set_json {T : Type} (c : Codec T)
    (s : ClientBidirectionalSignal T) (new_value : JVal) :
    ClientBidirectionalSignal T × Except Error Unit :=
  match c.fromJson new_value with
  | some t => ({ s with json_value := new_value, value := t }, .ok ())
  | none => ({ s with json_value := new_value }, .error .SerializationFailed)

/-! ### `src/read_only/server.rs` — `ServerReadOnlySignal<T>` -/

/-- The server-side read-only signal entry; its broadcast endpoint carries
`(origin, SignalUpdate)` pairs. -/
structure ServerReadOnlySignal (T : Type) where
  initial : T
  name : String
  value : T
  json_value : JVal
  observers : List (Option String × SignalUpdate)

/-- `ServerReadOnlySignal::update_json` (lines 48–62): apply the patch to
the shadow and broadcast; the reactive cell is never touched here. -/
def ServerReadOnlySignal.update_json {T : Type}
    (s : ServerReadOnlySignal T) (patch : List Op) (id : Option String) :
    ServerReadOnlySignal T × Except Error Unit :=
  match applyPatch s.json_value patch with
  | some newJson =>
    ({ s with
        json_value := newJson
        observers := s.observers ++
          [(id, SignalUpdate.new_from_patch s.name patch)] },
     .ok ())
  | none => (s, .error .UpdateSignalFailed)

/-- `ServerReadOnlySignal::set_json` (lines 63–74). -/
def ServerReadOnlySignal.set_json {T : Type} (c : Codec T)
    (s : ServerReadOnlySignal T) (new_value : JVal) :
    ServerReadOnlySignal T × Except Error Unit :=
  match c.fromJson new_value with
  | some t => ({ s with json_value := new_value, value := t }, .ok ())
  | none => ({ s with json_value := new_value }, .error .SerializationFailed)

/-! ### `src/ws_signals.rs` — the `WsSignals` registry -/

/-- Dynamic type tag of a stored signal trait object: the model of the
`dyn Any` type identity that `downcast_ref::<T>()` checks.  A small closed
universe of instantiations suffices for the registry claims. -/
inductive SigTy : Type where
  | roNat
  | roBool
  | biNat
  | biBool
deriving DecidableEq

/-- A stored `Arc<dyn WsSignalCore>` trait object: its dynamic type, its
shared-pointer identity (two handles are the same entry iff their `uid`
agrees), and the shadow JSON it currently serves. -/
structure DynSignal where
  ty : SigTy
  uid : Nat
  json : JVal
deriving DecidableEq

/-- Lookup in the `DashMap` model (first binding of the name). -/
def mapLookup (name : String) : List (String × DynSignal) → Option DynSignal
  | [] => none
  | (n, s) :: rest => if name = n then some s else mapLookup name rest

/-- `DashMap::insert`: bind the name to the new value, replacing an
existing binding in place. -/
def mapInsert (name : String) (v : DynSignal) :
    List (String × DynSignal) → List (String × DynSignal)
  | [] => [(name, v)]
  | (n, s) :: rest =>
    if name = n then (n, v) :: rest else (n, s) :: mapInsert name v rest

/-- `WsSignals` (lines 13–17): the two concurrent maps, signals and
channels. -/
structure WsSignals where
  signals : List (String × DynSignal)
  channels : List (String × DynSignal)
deriving DecidableEq

/-- `WsSignals::new`. -/
def WsSignals.new : WsSignals := { signals := [], channels := [] }

/-- `WsSignals::create_signal` (ssr branch, lines 47–57): insert the new
entry unconditionally, then inspect the previous binding that `insert`
returned; when one existed, its payload is downcast to the new entry's
type with `.unwrap()` — `none` models that panic on a type mismatch — and
the call reports `AddingSignalFailed` (even though the map has already
been updated). -/
def WsSignals.create_signal (m : WsSignals) (name : String) (value : DynSignal) :
    Option (WsSignals × Except Error Unit) :=
  let old := mapLookup name m.signals
  let m' := { m with signals := mapInsert name value m.signals }
  match old with
  | none => some (m', .ok ())
  | some oldv =>
    if oldv.ty = value.ty then some (m', .error .AddingSignalFailed)
    else none

/-- `WsSignals::get_signal` (lines 96–100): look the name up and downcast
to the requested type.  The outer `none` models the `.unwrap()` panic of a
failed downcast; the inner option is the map miss. -/
def WsSignals.get_signal (m : WsSignals) (name : String) (ty : SigTy) :
    Option (Option DynSignal) :=
  match mapLookup name m.signals with
  | none => some none
  | some s => if s.ty = ty then some (some s) else none

/-- `WsSignals::contains` (lines 108–110). -/
def WsSignals.contains (m : WsSignals) (name : String) : Bool :=
  (mapLookup name m.signals).isSome

/-- `WsSignals::add_observer` (lines 112–117): subscribe to a registered
signal's broadcast endpoint (`subscribe()` itself always succeeds); the
resulting receiver is represented by the entry it subscribes to. -/
def WsSignals.add_observer (m : WsSignals) (name : String) : Option DynSignal :=
  mapLookup name m.signals

/-- `WsSignals::add_observer_channel` (lines 119–124). -/
def WsSignals.add_observer_channel (m : WsSignals) (name : String) :
    Option DynSignal :=
  mapLookup name m.channels

/-- `WsSignals::json` (lines 133–138); the entry's `json()` accessor
clones the shadow under a shared lock (lock poisoning does not occur in
the model). -/
def WsSignals.json (m : WsSignals) (name : String) : Option (Except Error JVal) :=
  match mapLookup name m.signals with
  | some s => some (.ok s.json)
  | none => none

/-- `ServerReadOnlySignal::<T>::new` (`src/read_only/server.rs`,
lines 87–103) modelled at the registry level: `ty` is the concrete Rust
type `ServerReadOnlySignal<T>`, `uid` the identity of the freshly
allocated `Arc`, `initJson` the serialized initial value.  When the name
is already bound the existing handle is fetched with
`get_signal::<Self>(name).unwrap()`; otherwise a fresh entry is built and
`create_signal(..).unwrap()` registers it.  `none` models a panic of one
of those unwraps. -/
def ServerReadOnlySignal.new_reg (m : WsSignals) (name : String)
    (ty : SigTy) (uid : Nat) (initJson : JVal) :
    Option (WsSignals × DynSignal) :=
  if m.contains name then
    match m.get_signal name ty with
    | some (some s) => some (m, s)
    | some none => none
    | none => none
  else
    let fresh : DynSignal := { ty := ty, uid := uid, json := initJson }
    match m.create_signal name fresh with
    | some (m', .ok _) => some (m', fresh)
    | some (_, .error _) => none
    | none => none

/-! ### `src/lib.rs` — protocol driver -/

/-- `handle_broadcasts` (lines 241–254): the per-session forwarder task.
Given the session id and the `(origin, message)` pairs received in order
from the broadcast receiver, it returns the frames pushed to the session's
outbound sink: a pair whose origin equals `Some(id)` is skipped, every
other message is forwarded.  (The sink is modelled as always accepting;
a sink failure only terminates the loop early.) -/
def handle_broadcasts (id : String) :
    List (Option String × Messages) → List Messages
  | [] => []
  | p :: rest =>
    if p.1 = some id then handle_broadcasts id rest
    else p.2 :: handle_broadcasts id rest

/-- The `ServerSignal::Establish` arm of the server websocket task
(`leptos_ws_websocket`, lines 166–178): `add_observer(&name).unwrap()`,
then push `EstablishResponse(name, json(&name).unwrap().unwrap())` to the
outbound sink and spawn the forwarder.  `none` models the panic of an
unwrap when the name is not registered; otherwise the pushed response is
returned. -/
def leptos_ws_establish_server_signal (reg : WsSignals) (name : String) :
    Option Messages :=
  match reg.add_observer name with
  | none => none
  | some _ =>
    match reg.json name with
    | none => none
    | some (.error _) => none
    | some (.ok v) => some (.serverSignal (.establishResponse name v))

/-- The `BiDirectional::Establish` arm (lines 182–193), same shape. -/
def leptos_ws_establish_bidirectional (reg : WsSignals) (name : String) :
    Option Messages :=
  match reg.add_observer name with
  | none => none
  | some _ =>
    match reg.json name with
    | none => none
    | some (.error _) => none
    | some (.ok v) => some (.biDirectional (.establishResponse name v))

/-- The `Channel::Establish` arm (lines 202–209):
`add_observer_channel(&name).unwrap()`, then the payload-free
acknowledgement. -/
def leptos_ws_establish_channel (reg : WsSignals) (name : String) :
    Option Messages :=
  match reg.add_observer_channel name with
  | none => none
  | some _ => some (.channel (.establishResponse name))

/-! ### `src/lib.rs` — client websocket handle -/

/-- `ServerSignalWebSocket` (lines 29–33): the sender half of the bounded
mpsc channel feeding the websocket server function, modelled as the FIFO
of messages currently buffered, plus the `delayed_msgs` staging buffer. -/
structure ServerSignalWebSocket where
  sendQueue : List Messages
  delayed_msgs : List Messages
deriving DecidableEq

/-- `ServerSignalWebSocket::send` (lines 36–40): `try_send` the frame into
the bounded channel, ignoring the result — when the channel (capacity
`cap`) is full the frame is silently dropped — and return `Ok(())`.
`delayed_msgs` is never read or written. -/
def ServerSignalWebSocket.send (cap : Nat) (ws : ServerSignalWebSocket)
    (msg : Messages) : ServerSignalWebSocket × Except Error Unit :=
  (if ws.sendQueue.length < cap then
     { ws with sendQueue := ws.sendQueue ++ [msg] }
   else ws,
   .ok ())

/-- The fresh handle built by `ServerSignalWebSocket::new` (lines 41–139):
empty channel, empty (and forever unused) `delayed_msgs`. -/
def ServerSignalWebSocket.new : ServerSignalWebSocket :=
  { sendQueue := [], delayed_msgs := [] }

/-! ## Claim theorems -/

/-- The codec of the user type `bool`, used to instantiate claims at a
concrete type. -/
def boolCodec : Codec Bool where
  toJson := JVal.bool
  fromJson := fun v => match v with | .bool b => some b | _ => none

theorem boolCodec_lawful : boolCodec.Lawful := by
  intro t
  cases t <;> rfl

/-- A concrete server bidirectional entry for witnesses. -/
def sbTrue : ServerBidirectionalSignal Bool :=
  { initial := true, name := "b", value := true
    json_value := .bool true, observers := [] }

/-- A concrete client bidirectional entry for witnesses. -/
def cbTrue : ClientBidirectionalSignal Bool :=
  { name := "c", value := true, json_value := .bool true, observers := [] }

/-- A concrete read-only entry for witnesses. -/
def roTrue : ServerReadOnlySignal Bool :=
  { initial := true, name := "r", value := true
    json_value := .bool true, observers := [] }

/-- C1 (counterexample): the claim says a successful `update_json` reseeds
the reactive cell **iff** the origin is `Some`.  On the client
bidirectional signal a successful local-origin (`None`) patch also reseeds
the cell: starting from cell `true`, applying the patch
`[replace / false]` with origin `None` succeeds and leaves the cell
holding `false`. -/
theorem C1_counterexample :
    (cbTrue.update_json boolCodec [.replace [] (.bool false)] none).2 = .ok ()
    ∧ (cbTrue.update_json boolCodec [.replace [] (.bool false)] none).1.value = false
    ∧ cbTrue.value = true :=
  ⟨rfl, rfl, rfl⟩

/-- C1 (amended): origin-conditional reseeding holds only for the server
bidirectional signal (cell reseeded from the patched shadow exactly when
an origin is present, untouched on origin `None`); the client
bidirectional signal reseeds the cell on every successful `update_json`
regardless of origin; the server read-only signal's `update_json` never
touches the cell. -/
theorem C1_amended {T : Type} (c : Codec T) :
    (∀ (s : ServerBidirectionalSignal T) (patch : List Op) (id : Option String),
      (s.update_json c patch id).2 = .ok () →
        (id.isSome = true →
          some (s.update_json c patch id).1.value
            = c.fromJson (s.update_json c patch id).1.json_value)
        ∧ (id = none → (s.update_json c patch id).1.value = s.value))
    ∧ (∀ (s : ClientBidirectionalSignal T) (patch : List Op) (id : Option String),
      (s.update_json c patch id).2 = .ok () →
        some (s.update_json c patch id).1.value
          = c.fromJson (s.update_json c patch id).1.json_value)
    ∧ (∀ (s : ServerReadOnlySignal T) (patch : List Op) (id : Option String),
      (s.update_json patch id).1.value = s.value) := by
  refine ⟨?_, ?_, ?_⟩
  · intro s patch id
    unfold ServerBidirectionalSignal.update_json
    cases hap : applyPatch s.json_value patch with
    | none => simp
    | some newJson =>
      cases id with
      | none => simp
      | some i =>
        cases hfj : c.fromJson newJson with
        | none => simp [hfj]
        | some t => simp [hfj]
  · intro s patch id
    unfold ClientBidirectionalSignal.update_json
    cases hap : applyPatch s.json_value patch with
    | none => simp
    | some newJson =>
      cases hfj : c.fromJson newJson with
      | none => simp [hfj]
      | some t => cases id <;> simp [hfj]
  · intro s patch id
    unfold ServerReadOnlySignal.update_json
    cases hap : applyPatch s.json_value patch <;> simp

/-- Witness for C1 (amended): the server bidirectional conjunct evaluated
at the concrete entry `sbTrue`, a remote-origin replace patch. -/
theorem C1_amended_witness :
    (sbTrue.update_json boolCodec [.replace [] (.bool false)] (some "w")).2 = .ok ()
    ∧ ((some "w" : Option String).isSome = true →
        some (sbTrue.update_json boolCodec [.replace [] (.bool false)] (some "w")).1.value
          = boolCodec.fromJson
              (sbTrue.update_json boolCodec [.replace [] (.bool false)] (some "w")).1.json_value) :=
  ⟨rfl, fun h =>
    ((C1_amended boolCodec).1 sbTrue [.replace [] (.bool false)] (some "w") rfl).1 h⟩

/-- C2: the per-signal forwarder of a server session with identity `id`
forwards a received broadcast pair `(origin, msg)` to the session's
outbound sink iff `origin ≠ Some id`: the sink receives exactly the
messages of the pairs whose origin differs from `Some id`, in order.  In
particular no frame whose broadcast origin was the session's own id is
ever emitted to its outbound. -/
theorem C2_forward_iff_not_own (id : String)
    (msgs : List (Option String × Messages)) :
    handle_broadcasts id msgs
      = (msgs.filter (fun p => decide (¬ p.1 = some id))).map Prod.snd := by
  induction msgs with
  | nil => simp [handle_broadcasts]
  | cons p rest ih =>
    by_cases h : p.1 = some id <;>
      simp [handle_broadcasts, h, ih, List.filter_cons]

/-- C3: when applying a patch to the JSON shadow fails, `update_json`
returns `UpdateSignalFailed` and the signal state — shadow and broadcast
log alike — is exactly the state before the call, for both the server
bidirectional and the server read-only signal; in particular nothing is
sent to the broadcast observers. -/
theorem C3_patch_failure_clean {T : Type} (c : Codec T) :
    (∀ (s : ServerBidirectionalSignal T) (patch : List Op) (id : Option String),
      applyPatch s.json_value patch = none →
        s.update_json c patch id = (s, .error .UpdateSignalFailed))
    ∧ (∀ (s : ServerReadOnlySignal T) (patch : List Op) (id : Option String),
      applyPatch s.json_value patch = none →
        s.update_json patch id = (s, .error .UpdateSignalFailed)) := by
  constructor
  · intro s patch id hap
    unfold ServerBidirectionalSignal.update_json
    rw [hap]
  · intro s patch id hap
    unfold ServerReadOnlySignal.update_json
    rw [hap]

/-- Witness for C3: removing a member from an empty object fails, and the
failing update leaves both concrete entries untouched. -/
theorem C3_witness :
    applyPatch (JVal.obj []) [.remove [.key "x"]] = none
    ∧ ({ sbTrue with json_value := .obj [] }
        : ServerBidirectionalSignal Bool).update_json boolCodec
          [.remove [.key "x"]] none
        = ({ sbTrue with json_value := .obj [] }, .error .UpdateSignalFailed)
    ∧ ({ roTrue with json_value := .obj [] }
        : ServerReadOnlySignal Bool).update_json [.remove [.key "x"]] none
        = ({ roTrue with json_value := .obj [] }, .error .UpdateSignalFailed) :=
  ⟨rfl,
   (C3_patch_failure_clean boolCodec).1 _ [.remove [.key "x"]] none rfl,
   (C3_patch_failure_clean boolCodec).2 _ [.remove [.key "x"]] none rfl⟩

/-- A registry holding one read-only `Nat` signal under `"x"`, entry
identity 1. -/
def regNat : WsSignals :=
  { signals := [("x", { ty := .roNat, uid := 1, json := .num 0 })]
    channels := [] }

/-- C4 (counterexample): the claim says `new(name, value)` returns the
`AddingSignalFailed` error when `name` is bound to an entry of a different
type.  In the code the existing entry is downcast with
`get_signal::<T>(name).unwrap()`, which panics on the type mismatch —
modelled by `none` — so no error value is ever returned: constructing a
`bool` read-only signal over the `"x" ↦ Nat` binding panics. -/
theorem C4_counterexample :
    ServerReadOnlySignal.new_reg regNat "x" .roBool 2 (.bool true) = none :=
  rfl

/-- C4 (amended): when the name is bound to an entry of the same type,
`new` returns the existing handle and leaves the registry unchanged; when
the bound entry has a different type, `new` panics in the downcast
(`unwrap` of `None`) instead of returning an error; an unbound name gets a
fresh entry registered and returned. -/
theorem C4_amended (m : WsSignals) (name : String) (ty : SigTy) (uid : Nat)
    (initJson : JVal) :
    (∀ s, mapLookup name m.signals = some s → s.ty = ty →
      ServerReadOnlySignal.new_reg m name ty uid initJson = some (m, s))
    ∧ (∀ s, mapLookup name m.signals = some s → s.ty ≠ ty →
      ServerReadOnlySignal.new_reg m name ty uid initJson = none)
    ∧ (mapLookup name m.signals = none →
      ServerReadOnlySignal.new_reg m name ty uid initJson
        = some
            ({ m with
                signals := mapInsert name
                  { ty := ty, uid := uid, json := initJson } m.signals },
             { ty := ty, uid := uid, json := initJson })) := by
  refine ⟨?_, ?_, ?_⟩
  · intro s hl hty
    unfold ServerReadOnlySignal.new_reg WsSignals.contains WsSignals.get_signal
    simp [hl, hty]
  · intro s hl hty
    unfold ServerReadOnlySignal.new_reg WsSignals.contains WsSignals.get_signal
    simp [hl, hty]
  · intro hl
    unfold ServerReadOnlySignal.new_reg WsSignals.contains WsSignals.get_signal
      WsSignals.create_signal
    simp [hl]

/-- Witness for C4 (amended): fetching the existing same-typed entry of
`regNat` returns it unchanged. -/
theorem C4_amended_witness :
    mapLookup "x" regNat.signals
        = some { ty := .roNat, uid := 1, json := .num 0 }
    ∧ ServerReadOnlySignal.new_reg regNat "x" .roNat 7 (.num 9)
        = some (regNat, { ty := .roNat, uid := 1, json := .num 0 }) :=
  ⟨rfl,
   (C4_amended regNat "x" .roNat 7 (.num 9)).1
     { ty := .roNat, uid := 1, json := .num 0 } rfl rfl⟩

/-- C5: evaluating `create_signal` at the failing input.  With `"x"`
already bound to entry 1, `create_signal("x", entry 2)` (same stored
type) returns `AddingSignalFailed` — yet the map now binds `"x"` to the
new entry 2: the failing creation replaced the existing binding, which
contradicts the claim (and the error's own meaning, "could not add"). -/
theorem C5_create_replaces_binding :
    WsSignals.create_signal regNat "x" { ty := .roNat, uid := 2, json := .num 5 }
      = some ({ signals := [("x", { ty := .roNat, uid := 2, json := .num 5 })]
                channels := [] },
              .error .AddingSignalFailed)
    ∧ mapLookup "x"
        (mapInsert "x" { ty := .roNat, uid := 2, json := .num 5 } regNat.signals)
      ≠ some { ty := .roNat, uid := 1, json := .num 0 } :=
  ⟨rfl, by simp [mapInsert, mapLookup, regNat]⟩

/-- C6: a `try_maybe_update` whose closure leaves the serialized cell
value equal to the current JSON shadow changes neither the broadcast log
nor the shadow, and still hands the closure's result back. -/
theorem C6_noop_update_no_broadcast {T U : Type} (c : Codec T)
    (s : ServerBidirectionalSignal T) (f : T → T × Bool × U)
    (h : c.toJson (f s.value).1 = s.json_value) :
    (s.try_maybe_update c f).1.observers = s.observers
    ∧ (s.try_maybe_update c f).1.json_value = s.json_value
    ∧ (s.try_maybe_update c f).2 = some (f s.value).2.2 := by
  unfold ServerBidirectionalSignal.try_maybe_update
    ServerBidirectionalSignal.update_if_changed
  simp [h]

/-- Witness for C6: a closure writing `true` over `true` (reporting
`mutated = false`) on the concrete entry produces no broadcast. -/
theorem C6_witness :
    boolCodec.toJson ((fun b => (b, false, (0 : Nat))) sbTrue.value).1
        = sbTrue.json_value
    ∧ (sbTrue.try_maybe_update boolCodec
        (fun b => (b, false, (0 : Nat)))).1.observers = sbTrue.observers :=
  ⟨rfl,
   (C6_noop_update_no_broadcast boolCodec sbTrue
     (fun b => (b, false, (0 : Nat))) rfl).1⟩

/-- C7: the patch carried by `SignalUpdate::new_from_json(name, v, v')` —
the diff the engine broadcasts — applied to `v` succeeds and yields
exactly `v'`, for all JSON values in serde_json's sorted-object
representation. -/
theorem C7_diff_apply_roundtrip (name : String) (v v' : JVal)
    (hv : wfJ v = true) (hv' : wfJ v' = true) :
    applyPatch v (SignalUpdate.new_from_json name v v').patch = some v' := by
  simpa [SignalUpdate.new_from_json] using apply_diff_eq v v' hv hv'

/-- Witness for C7: a concrete object-to-array round trip. -/
theorem C7_witness :
    wfJ (JVal.obj [("a", JVal.num 1)]) = true
    ∧ wfJ (JVal.arr [JVal.num 2, JVal.bool true]) = true
    ∧ applyPatch (JVal.obj [("a", JVal.num 1)])
        (SignalUpdate.new_from_json "n" (JVal.obj [("a", JVal.num 1)])
          (JVal.arr [JVal.num 2, JVal.bool true])).patch
      = some (JVal.arr [JVal.num 2, JVal.bool true]) :=
  ⟨by decide, by decide,
   C7_diff_apply_roundtrip "n" _ _ (by decide) (by decide)⟩

/-- The frame used in the C8 witnesses. -/
def estA : Messages := .serverSignal (.establish "a")

/-- C8 (counterexample): the claim says a frame submitted before the
transport is open is staged in the delayed-messages FIFO.  `send` never
touches `delayed_msgs`: after sending on a fresh (not-yet-open) handle the
staging buffer is still empty. -/
theorem C8_counterexample :
    (ServerSignalWebSocket.new.send 32 estA).1.delayed_msgs = []
    ∧ (ServerSignalWebSocket.new.send 32 estA).1.delayed_msgs ≠ [estA] :=
  ⟨rfl, by decide⟩

/-- C8 (amended): outbound frames are buffered in the bounded mpsc send
channel in FIFO order — appended while the channel has room, silently
dropped once it is full — and `send` always reports success; the
delayed-messages buffer is never used. -/
theorem C8_amended (cap : Nat) (ws : ServerSignalWebSocket) (msg : Messages) :
    (ws.send cap msg).1.delayed_msgs = ws.delayed_msgs
    ∧ (ws.send cap msg).2 = .ok ()
    ∧ (ws.sendQueue.length < cap →
        (ws.send cap msg).1.sendQueue = ws.sendQueue ++ [msg])
    ∧ (¬ ws.sendQueue.length < cap →
        (ws.send cap msg).1.sendQueue = ws.sendQueue) := by
  unfold ServerSignalWebSocket.send
  by_cases h : ws.sendQueue.length < cap <;> simp [h]

/-- Witness for C8 (amended): the fresh handle has room, so the frame is
appended to the channel buffer. -/
theorem C8_amended_witness :
    ServerSignalWebSocket.new.sendQueue.length < 32
    ∧ (ServerSignalWebSocket.new.send 32 estA).1.sendQueue
        = ServerSignalWebSocket.new.sendQueue ++ [estA] :=
  ⟨by decide, (C8_amended 32 ServerSignalWebSocket.new estA).2.2.1 (by decide)⟩

/-- C9: `set_json` with a JSON value that fails to deserialize into `T`
reports `SerializationFailed`, but the shadow has already been overwritten
with the new value while the cell keeps its old contents — so at return
the shadow no longer equals the serialized cell (for any lawful codec) —
for all three stateful entries. -/
theorem C9_set_json_breaks_invariant {T : Type} (c : Codec T)
    (hc : c.Lawful) :
    (∀ (s : ServerBidirectionalSignal T) (v : JVal), c.fromJson v = none →
      (s.set_json c v).2 = .error .SerializationFailed
      ∧ (s.set_json c v).1.json_value = v
      ∧ (s.set_json c v).1.value = s.value
      ∧ (s.set_json c v).1.json_value ≠ c.toJson (s.set_json c v).1.value)
    ∧ (∀ (s : ClientBidirectionalSignal T) (v : JVal), c.fromJson v = none →
      (s.set_json c v).2 = .error .SerializationFailed
      ∧ (s.set_json c v).1.json_value = v
      ∧ (s.set_json c v).1.value = s.value
      ∧ (s.set_json c v).1.json_value ≠ c.toJson (s.set_json c v).1.value)
    ∧ (∀ (s : ServerReadOnlySignal T) (v : JVal), c.fromJson v = none →
      (s.set_json c v).2 = .error .SerializationFailed
      ∧ (s.set_json c v).1.json_value = v
      ∧ (s.set_json c v).1.value = s.value
      ∧ (s.set_json c v).1.json_value ≠ c.toJson (s.set_json c v).1.value) := by
  refine ⟨?_, ?_, ?_⟩
  · intro s v hv
    unfold ServerBidirectionalSignal.set_json
    rw [hv]
    refine ⟨rfl, rfl, rfl, ?_⟩
    intro he
    simp only at he
    rw [he, hc s.value] at hv
    exact Option.noConfusion hv
  · intro s v hv
    unfold ClientBidirectionalSignal.set_json
    rw [hv]
    refine ⟨rfl, rfl, rfl, ?_⟩
    intro he
    simp only at he
    rw [he, hc s.value] at hv
    exact Option.noConfusion hv
  · intro s v hv
    unfold ServerReadOnlySignal.set_json
    rw [hv]
    refine ⟨rfl, rfl, rfl, ?_⟩
    intro he
    simp only at he
    rw [he, hc s.value] at hv
    exact Option.noConfusion hv

/-- Witness for C9: `null` does not deserialize to `bool`; setting it on
the concrete server entry errors with the shadow already replaced. -/
theorem C9_witness :
    boolCodec.fromJson JVal.null = none
    ∧ (sbTrue.set_json boolCodec JVal.null).2 = .error .SerializationFailed
    ∧ (sbTrue.set_json boolCodec JVal.null).1.json_value = JVal.null
    ∧ (sbTrue.set_json boolCodec JVal.null).1.value = sbTrue.value :=
  ⟨rfl,
   ((C9_set_json_breaks_invariant boolCodec boolCodec_lawful).1 sbTrue
     JVal.null rfl).1,
   ((C9_set_json_breaks_invariant boolCodec boolCodec_lawful).1 sbTrue
     JVal.null rfl).2.1,
   ((C9_set_json_breaks_invariant boolCodec boolCodec_lawful).1 sbTrue
     JVal.null rfl).2.2.1⟩

/-- C10: each `Establish` arm of the server websocket handler panics —
`unwrap` of `None`, modelled by a `none` result — exactly when the named
signal (resp. channel) is not registered in the server registry; a
registered name always produces the response frame. -/
theorem C10_establish_unregistered_panics (reg : WsSignals) (name : String) :
    (leptos_ws_establish_server_signal reg name = none
      ↔ mapLookup name reg.signals = none)
    ∧ (leptos_ws_establish_bidirectional reg name = none
      ↔ mapLookup name reg.signals = none)
    ∧ (leptos_ws_establish_channel reg name = none
      ↔ mapLookup name reg.channels = none) := by
  unfold leptos_ws_establish_server_signal leptos_ws_establish_bidirectional
    leptos_ws_establish_channel WsSignals.add_observer
    WsSignals.add_observer_channel WsSignals.json
  refine ⟨?_, ?_, ?_⟩
  · cases mapLookup name reg.signals <;> simp
  · cases mapLookup name reg.signals <;> simp
  · cases mapLookup name reg.channels <;> simp
